import Mathlib

/-!
# C.A.S.T. radio link: text framing, voice framing and mode dispatch

A shallow embedding of the transport logic of the four station programs
(`Complete Receiver.cpp`, `Speech to Text Transmitter.cpp`,
`Text to Speech Transmitter.cpp`, `Speech to Speech Transmitter.cpp`).

* Bytes (`char`, `unsigned char`) are natural numbers below 256.
* A `std::string`, a `char buffer[32]` prefix and a `vector<unsigned char>` are lists of bytes.
* The radio is the list of packets still in the air: `radio.write(buf, len)` appends the
  `len` bytes as one packet, a successful `radio.available()` / `radio.read` takes the head.
  A receive loop that polls an empty air never returns; such a run is `none`.
-/

namespace CAST

/-- Byte sequences: the contents of a `std::string` or of a byte vector. -/
abbrev Bytes := List Nat

/-- One radio payload as delivered by the channel. -/
abbrev Packet := List Nat

/-- The bytes of an ASCII string literal. -/
def str (s : String) : Bytes := s.toList.map Char.toNat

/-- `PACKET_SIZE` of the receiver and of the voice transmitter. -/
def PACKET_SIZE : Nat := 32

/-! ## Text transmitters -/

/-- The C string literal `"EOF"` as it lies in memory: three letters and the terminating NUL. -/
def eofLiteral : Bytes := str "EOF" ++ [0]

/-- The `while (index < message.length())` loop of `sendMessage`: one packet per
`message.substr(index, chunkSize)`, then `index += chunkSize`. -/
def sendMessageLoop (message : Bytes) (chunkSize : Nat) : Nat → Nat → List Packet
  | 0, _ => []
  | fuel + 1, index =>
    if index < message.length then
      (message.drop index).take chunkSize ::
        sendMessageLoop message chunkSize fuel (index + chunkSize)
    else []

/-- `sendMessage(radio, message)`: the packets written, in order. The loop runs
at most `message.length` times, which is the fuel given. The closing
`radio.write("EOF", 4)` sends the literal with its NUL. -/
def sendMessage (message : Bytes) : List Packet :=
  sendMessageLoop message 32 message.length 0 ++ [eofLiteral.take 4]

/-- The `while (file.read(buffer, 32) || file.gcount() > 0)` loop of `sendFile`
over the unread rest of the file: `file.read` succeeds iff all 32 bytes were
there, `gcount` is the number of bytes actually read. -/
def sendFileLoop : Nat → Bytes → List Packet
  | 0, _ => []
  | fuel + 1, file =>
    let buffer := file.take 32
    let gcount := buffer.length
    if gcount = 32 ∨ gcount > 0 then
      buffer.take gcount :: sendFileLoop fuel (file.drop 32)
    else []

/-- `sendFile(radio, filePath)` for a file with the given content; the end
marker is `endMsg.c_str()` written with `endMsg.size() + 1` bytes. -/
def sendFile (content : Bytes) : List Packet :=
  sendFileLoop content.length content ++ [eofLiteral.take ((str "EOF").length + 1)]

/-! ## Text receiver -/

/-- C `strncmp(s1, s2, n)`: compares at most `n` bytes and stops after a NUL
common to both; a byte missing from a list reads as NUL. -/
def strncmp : Bytes → Bytes → Nat → Int
  | _, _, 0 => 0
  | s1, s2, n + 1 =>
    let a := s1.headD 0
    let b := s2.headD 0
    if a ≠ b then (a : Int) - (b : Int)
    else if a = 0 then 0
    else strncmp s1.tail s2.tail n

/-- The loop of `receiveFile`: `messageStream` is what has been written so
far, the list is the air. Returns the stream at the `break` and the packets
not yet read. -/
def receiveFileLoop : Bytes → List Packet → Option (Bytes × List Packet)
  | _, [] => none
  | messageStream, buffer :: air =>
    let len := buffer.length
    if len ≥ 3 ∧ strncmp buffer eofLiteral 3 = 0 then some (messageStream, air)
    else receiveFileLoop (messageStream ++ buffer.take len) air

/-- `receiveFile(radio)`: the reassembled text and the packets left in the air. -/
def receiveFile (air : List Packet) : Option (Bytes × List Packet) :=
  receiveFileLoop [] air

/-! ## Emergency classifier -/

/-- C `tolower` in the default locale: only `A`..`Z` change. -/
def tolower (c : Nat) : Nat := if 65 ≤ c ∧ c ≤ 90 then c + 32 else c

/-- `std::string::find(word)` from position 0, searching from offset `pos`
of the original string: the first position where `word` matches, `none` for `npos`. -/
def findFrom (word : Bytes) : Bytes → Nat → Option Nat
  | [], pos => if word = [] then some pos else none
  | c :: rest, pos =>
    if word.isPrefixOf (c :: rest) then some pos else findFrom word rest (pos + 1)

/-- `lower.find(word)`. -/
def find (lower word : Bytes) : Option Nat := findFrom word lower 0

/-- The keyword table of `detectEmergencyKeywords`. -/
def keywords : List Bytes :=
  [str "emergency", str "help", str "urgent", str "danger", str "alarm"]

/-- The `for (const string& word : keywords)` loop with its early `return true`. -/
def keywordLoop (lower : Bytes) : List Bytes → Bool
  | [] => false
  | word :: more => if find lower word ≠ none then true else keywordLoop lower more

/-- `detectEmergencyKeywords(message)`. -/
def detectEmergencyKeywords (message : Bytes) : Bool :=
  let lower := message.map tolower
  keywordLoop lower keywords

/-! ## Voice receiver -/

/-- The Codec2 library as the receiver uses it: the two frame constants, the
state made by `codec2_create`, and `codec2_decode`, which reads one frame of
`nbytes` bytes and yields the samples together with the updated codec state. -/
structure Codec (σ : Type) where
  nsam : Nat
  nbytes : Nat
  create : σ
  decode : σ → Bytes → σ × List Int

/-- The local state of `receiveSTS`. `decoded` is ghost state: the frames
handed to `codec2_decode` so far, in order. -/
structure StsState (σ : Type) where
  codec2 : σ
  buffer : Bytes
  allSamples : List Int
  decoded : List Bytes

/-- The inner `while (buffer.size() >= nbytes)` loop: decode the head frame,
append the samples, erase the frame from the buffer. `none` when the fuel runs
out, which for `nbytes = 0` is every fuel: the loop never exits. -/
def decodeLoop {σ : Type} (c : Codec σ) : Nat → StsState σ → Option (StsState σ)
  | 0, _ => none
  | fuel + 1, s =>
    if s.buffer.length ≥ c.nbytes then
      let frame := s.buffer.take c.nbytes
      let r := c.decode s.codec2 frame
      decodeLoop c fuel
        { codec2 := r.1
          buffer := s.buffer.drop c.nbytes
          allSamples := s.allSamples ++ r.2
          decoded := s.decoded ++ [frame] }
    else some s

/-- What one received packet does to the session. -/
inductive Flow (σ : Type) where
  | brk : Flow σ
  | cont : StsState σ → Flow σ
  | hang : Flow σ

/-- The body of the outer loop of `receiveSTS` for one packet that
`radio.read` put into the 32-byte vector `packet`. -/
def stsPacket {σ : Type} (c : Codec σ) (s : StsState σ) (packet : Packet) : Flow σ :=
  let length := packet.getD 0 0
  if length = 0xFF then Flow.brk
  else if length = 0 ∨ length > PACKET_SIZE - 1 then Flow.cont s
  else
    let buffer := s.buffer ++ (packet.drop 1).take length
    match decodeLoop c (buffer.length + 1) { s with buffer := buffer } with
    | none => Flow.hang
    | some s1 => Flow.cont s1

/-- The outer `while (true)` loop of `receiveSTS` over the air. Returns the
state at the `break` and the packets not yet read; `none` when the air runs
dry before an end marker or the inner loop never exits. -/
def receiveSTSLoop {σ : Type} (c : Codec σ) : StsState σ → List Packet →
    Option (StsState σ × List Packet)
  | _, [] => none
  | s, packet :: air =>
    match stsPacket c s packet with
    | Flow.brk => some (s, air)
    | Flow.cont s1 => receiveSTSLoop c s1 air
    | Flow.hang => none

/-- `receiveSTS()`: a fresh codec, empty buffer and empty sample vector. -/
def receiveSTS {σ : Type} (c : Codec σ) (air : List Packet) :
    Option (StsState σ × List Packet) :=
  receiveSTSLoop c { codec2 := c.create, buffer := [], allSamples := [], decoded := [] } air

/-! ## Voice transmitter -/

/-- The inner `while (sent < compressedBytes.size())` loop of `transmit` for
one compressed frame: a zeroed 32-byte packet, byte 0 the chunk size, the chunk
copied from offset 1. -/
def framePacketsLoop (compressedBytes : Bytes) : Nat → Nat → List Packet
  | 0, _ => []
  | fuel + 1, sent =>
    if sent < compressedBytes.length then
      let chunkSize := min (PACKET_SIZE - 1) (compressedBytes.length - sent)
      let chunk := (compressedBytes.drop sent).take chunkSize
      let packet :=
        (chunkSize % 256) :: (chunk ++ List.replicate (PACKET_SIZE - 1 - chunk.length) 0)
      packet :: framePacketsLoop compressedBytes fuel (sent + chunkSize)
    else []

/-- The packets `transmit` writes for one compressed frame. -/
def framePackets (compressedBytes : Bytes) : List Packet :=
  framePacketsLoop compressedBytes compressedBytes.length 0

/-- The end marker of `transmit`: 32 bytes of `0xEE` with byte 0 set to `0xFF`. -/
def eofPacket : Packet := (List.replicate PACKET_SIZE 0xEE).set 0 0xFF

/-- The radio traffic of `transmit()`. `frames` are the successive contents of
`compressedBytes`, one per pass of the `fread` / `codec2_encode` loop (capture
and encoding are outside the model): the packets of each frame in order, then
the end marker. -/
def transmit (frames : List Bytes) : List Packet :=
  (frames.map framePackets).flatten ++ [eofPacket]

/-! ## Receiver main loop -/

/-- What one pass of the dispatch loop did. -/
inductive Outcome where
  | voice (frames : List Bytes) (samples : List Int) : Outcome
  | text (mode message : Bytes) (emergency : Bool) : Outcome
  | unknown (mode : Bytes) : Outcome
  deriving DecidableEq

/-- One pass of the `while (true)` loop of the receiver `main`: read the mode
with `receiveFile`, then branch on it. Returns what was done and the packets
left in the air; `none` when a receive never returns. -/
def mainIteration {σ : Type} (c : Codec σ) (air : List Packet) :
    Option (Outcome × List Packet) :=
  match receiveFile air with
  | none => none
  | some (mode, air1) =>
    if mode = str "STS" then
      match receiveSTS c air1 with
      | none => none
      | some (s, air2) => some (Outcome.voice s.decoded s.allSamples, air2)
    else if mode = str "STT" ∨ mode = str "TTS" ∨ mode = str "TTT" then
      match receiveFile air1 with
      | none => none
      | some (message, air2) =>
        some (Outcome.text mode message (detectEmergencyKeywords message), air2)
    else some (Outcome.unknown mode, air1)

/-- The dispatch loop run for at most `n` passes: the outcomes of the passes
completed before a receive blocks for good. -/
def mainLoop {σ : Type} (c : Codec σ) : Nat → List Packet → List Outcome
  | 0, _ => []
  | n + 1, air =>
    match mainIteration c air with
    | none => []
    | some (o, air1) => o :: mainLoop c n air1

/-- A toy codec for evaluation: frames of `nbytes` bytes, one sample per
frame (the byte sum plus the number of frames decoded before), state = that number. -/
def sumCodec (nbytes : Nat) : Codec Nat :=
  { nsam := 1, nbytes := nbytes, create := 0,
    decode := fun st frame => (st + 1, [((frame.sum + st : Nat) : Int)]) }

/-- Sample traffic: the stream 1..7 in one accepted packet. -/
def sampleBodyA : List Packet := [7 :: ([1, 2, 3, 4, 5, 6, 7] ++ List.replicate 24 0)]

/-- Sample traffic: the stream 1..7 in two accepted packets, with a zero-length
packet and a packet of control byte 200 in between and after. -/
def sampleBodyB : List Packet :=
  [2 :: ([1, 2] ++ List.replicate 29 9), 0 :: List.replicate 31 5,
    5 :: ([3, 4, 5, 6, 7] ++ List.replicate 26 0), 200 :: List.replicate 31 1]

/-! ## Text-to-Speech transmitter start-up -/

/-- The radio traffic of the Text-to-Speech transmitter `main` before its menu
loop: `radio.write("TTS", 3)`, then `sendFile` of the log file that
`saveMessageToLogFile(emptyMessage, mode1)` wrote, whose content is
`emptyMessage = "1"`. -/
def ttsStartup : List Packet :=
  [(str "TTS" ++ [0]).take 3] ++ sendFile (str "1")

/-! ## Vocabulary of the voice claims -/

/-- The wire form of one chunk: its length, the chunk, zero padding up to 32 bytes. -/
def voicePacket (chunk : Bytes) : Packet :=
  chunk.length :: (chunk ++ List.replicate (31 - chunk.length) 0)

/-- The accepted packets: control byte in 1..31. -/
def accepted (p : Packet) : Bool := decide (1 ≤ p.getD 0 0 ∧ p.getD 0 0 ≤ 31)

/-- The payloads of the accepted packets, concatenated in arrival order. -/
def payloadStream (body : List Packet) : Bytes :=
  ((body.filter accepted).map (fun p => (p.drop 1).take (p.getD 0 0))).flatten

/-- The sum of the declared lengths of the accepted packets. -/
def declaredTotal (body : List Packet) : Nat :=
  ((body.filter accepted).map (fun p => p.getD 0 0)).sum

/-- The stream `B` cut into whole frames of `F` bytes: frame `k` is bytes
`[k * F, (k + 1) * F)`, for `k < floor (|B| / F)`. -/
def framesOf (F : Nat) (B : Bytes) : List Bytes :=
  (List.range (B.length / F)).map (fun k => (B.drop (k * F)).take F)

/-- A fresh decoder fed the given frames in order: its final state and all the
samples it produced. -/
def decodeFrames {σ : Type} (c : Codec σ) (frames : List Bytes) : σ × List Int :=
  frames.foldl (fun acc f => ((c.decode acc.1 f).1, acc.2 ++ (c.decode acc.1 f).2))
    (c.create, [])

/-- Loop invariant of `receiveSTS` once the accepted bytes so far are `B`:
`q` whole frames have left the buffer, the buffer is the rest of `B`, the
frames decoded are the first `q` frames of `B`, and the codec state and the
samples are those of a fresh decoder fed these frames. -/
def StsInv {σ : Type} (c : Codec σ) (B : Bytes) (q : Nat) (s : StsState σ) : Prop :=
  q * c.nbytes + s.buffer.length = B.length ∧
  s.buffer = B.drop (q * c.nbytes) ∧
  s.decoded = (List.range q).map (fun k => (B.drop (k * c.nbytes)).take c.nbytes) ∧
  (s.codec2, s.allSamples) = decodeFrames c s.decoded

/-! ## Helper lemmas: text framing -/

theorem str_EOF : str "EOF" = [69, 79, 70] := by decide

theorem eofLiteral_eq : eofLiteral = [69, 79, 70, 0] := by decide

/-- The stop test of the receiver is a test on the first three bytes of the packet. -/
theorem stop_test_iff (buffer : Packet) :
    (buffer.length ≥ 3 ∧ strncmp buffer eofLiteral 3 = 0) ↔ str "EOF" <+: buffer := by
  rw [eofLiteral_eq, str_EOF]
  match buffer with
  | [] => simp
  | [a] => simp
  | [a, b] => simp
  | a :: b :: c :: t =>
    simp only [List.length_cons, ge_iff_le, Nat.le_add_left, true_and, strncmp, List.headD_cons,
      List.tail_cons, List.cons_prefix_cons, List.nil_prefix, and_true]
    by_cases ha : a = 69
    · by_cases hb : b = 79
      · by_cases hc : c = 70
        · simp [ha, hb, hc]
        · simp [ha, hb, hc]; omega
      · simp [ha, hb]; omega
    · simp [ha]; omega

theorem receiveFileLoop_stop (acc : Bytes) (buffer : Packet) (air : List Packet)
    (h : str "EOF" <+: buffer) :
    receiveFileLoop acc (buffer :: air) = some (acc, air) := by
  have h1 := (stop_test_iff buffer).mpr h
  simp only [receiveFileLoop]
  rw [if_pos h1]

theorem receiveFileLoop_data (acc : Bytes) (buffer : Packet) (air : List Packet)
    (h : ¬ str "EOF" <+: buffer) :
    receiveFileLoop acc (buffer :: air) = receiveFileLoop (acc ++ buffer) air := by
  have h1 : ¬ (buffer.length ≥ 3 ∧ strncmp buffer eofLiteral 3 = 0) :=
    fun hh => h ((stop_test_iff buffer).mp hh)
  simp only [receiveFileLoop]
  rw [if_neg h1, List.take_length]

theorem sentinel_starts : str "EOF" <+: eofLiteral.take 4 := by decide

theorem sendFile_sentinel : eofLiteral.take ((str "EOF").length + 1) = eofLiteral.take 4 := by
  decide

theorem sendMessageLoop_succ (M : Bytes) (fuel index : Nat) (h : index < M.length) :
    sendMessageLoop M 32 (fuel + 1) index =
      (M.drop index).take 32 :: sendMessageLoop M 32 fuel (index + 32) := by
  simp only [sendMessageLoop]
  rw [if_pos h]

theorem sendMessageLoop_done (M : Bytes) (fuel index : Nat) (h : M.length ≤ index) :
    sendMessageLoop M 32 fuel index = [] := by
  cases fuel with
  | zero => rfl
  | succ n =>
    simp only [sendMessageLoop]
    rw [if_neg (by omega)]

/-- The file loop and the string loop write the same packets. -/
theorem sendFileLoop_eq (M : Bytes) (fuel index : Nat) :
    sendFileLoop fuel (M.drop index) = sendMessageLoop M 32 fuel index := by
  induction fuel generalizing index with
  | zero => rfl
  | succ n ih =>
    by_cases h : index < M.length
    · rw [sendMessageLoop_succ M n index h]
      simp only [sendFileLoop, List.take_length, List.drop_drop]
      have hpos : ((M.drop index).take 32).length = 32 ∨ ((M.drop index).take 32).length > 0 := by
        right
        simp only [List.length_take, List.length_drop]
        omega
      rw [if_pos hpos, ← ih (index + 32)]
    · rw [sendMessageLoop_done M (n + 1) index (by omega)]
      simp only [sendFileLoop]
      have hneg : ¬ (((M.drop index).take 32).length = 32 ∨
          ((M.drop index).take 32).length > 0) := by
        simp only [List.length_take, List.length_drop]
        omega
      rw [if_neg hneg]

theorem sendFile_eq_sendMessage (M : Bytes) : sendFile M = sendMessage M := by
  have h := sendFileLoop_eq M M.length 0
  rw [List.drop_zero] at h
  simp only [sendFile, sendMessage]
  rw [h, sendFile_sentinel]

/-- A chunk of the message is a contiguous piece of it. -/
theorem chunk_is_piece (M : Bytes) (index n : Nat) : (M.drop index).take n <:+: M :=
  List.IsInfix.trans (List.take_prefix n (M.drop index)).isInfix
    (List.drop_suffix index M).isInfix

/-- Run of the receiver over the data packets of a message none of whose
chunks starts with the sentinel. -/
theorem receive_data_packets (M : Bytes)
    (hM : ∀ k, ¬ str "EOF" <+: (M.drop (32 * k)).take 32) (air : List Packet) :
    ∀ (fuel j : Nat) (acc : Bytes), M.length - 32 * j ≤ fuel →
      receiveFileLoop acc (sendMessageLoop M 32 fuel (32 * j) ++ air) =
        receiveFileLoop (acc ++ M.drop (32 * j)) air := by
  intro fuel
  induction fuel with
  | zero =>
    intro j acc hf
    rw [sendMessageLoop_done M 0 _ (by omega), List.drop_of_length_le (by omega)]
    simp
  | succ n ih =>
    intro j acc hf
    by_cases h : 32 * j < M.length
    · rw [sendMessageLoop_succ M n _ h, List.cons_append, receiveFileLoop_data _ _ _ (hM j)]
      have e : 32 * j + 32 = 32 * (j + 1) := by ring
      rw [e, ih (j + 1) _ (by omega), List.append_assoc]
      congr 2
      have := List.take_append_drop 32 (M.drop (32 * j))
      rw [List.drop_drop] at this
      rw [← e, this]
    · rw [sendMessageLoop_done M _ _ (by omega), List.drop_of_length_le (by omega)]
      simp

/-- The data packets of the string loop, listed by chunk number. -/
theorem sendMessageLoop_eq_map (M : Bytes) :
    ∀ (fuel index : Nat), M.length - index ≤ fuel →
      sendMessageLoop M 32 fuel index =
        (List.range ((M.length - index + 31) / 32)).map
          (fun k => (M.drop (index + 32 * k)).take 32) := by
  intro fuel
  induction fuel with
  | zero =>
    intro index hf
    have h0 : (M.length - index + 31) / 32 = 0 := by omega
    rw [h0]
    rfl
  | succ n ih =>
    intro index hf
    by_cases h : index < M.length
    · have hc : (M.length - index + 31) / 32 = (M.length - (index + 32) + 31) / 32 + 1 := by
        omega
      rw [sendMessageLoop_succ M n index h, ih (index + 32) (by omega), hc,
        List.range_succ_eq_map, List.map_cons, List.map_map]
      congr 1
      apply List.map_congr_left
      intro k _
      simp only [Function.comp, Nat.succ_eq_add_one, Nat.mul_add, Nat.mul_one, Nat.mul_zero,
        Nat.add_zero]
      congr 2
      omega
    · have h0 : (M.length - index + 31) / 32 = 0 := by omega
      rw [sendMessageLoop_done M _ _ (by omega), h0]
      rfl

/-- The packets of `sendMessage`, listed by chunk number, then the sentinel. -/
theorem sendMessage_eq_map (M : Bytes) :
    sendMessage M =
      (List.range ((M.length + 31) / 32)).map (fun k => (M.drop (32 * k)).take 32) ++
        [str "EOF" ++ [0]] := by
  have h := sendMessageLoop_eq_map M M.length 0 (by omega)
  simp only [Nat.sub_zero, Nat.zero_add] at h
  simp only [sendMessage]
  rw [h]
  rfl

/-- The first `k` chunks put together are the first `32 * k` bytes. -/
theorem flatten_chunks (M : Bytes) (k : Nat) :
    ((List.range k).map (fun i => (M.drop (32 * i)).take 32)).flatten = M.take (32 * k) := by
  induction k with
  | zero => simp
  | succ n ih =>
    rw [List.range_succ, List.map_append, List.flatten_append, ih, Nat.mul_succ, List.take_add]
    simp

/-- The receiver appends every packet up to the first one that begins with
the sentinel, and stops there. -/
theorem receiveFileLoop_run (pre : List Packet) (stop : Packet) (air : List Packet)
    (hpre : ∀ p ∈ pre, ¬ str "EOF" <+: p) (hstop : str "EOF" <+: stop) :
    ∀ acc : Bytes, receiveFileLoop acc (pre ++ stop :: air) = some (acc ++ pre.flatten, air) := by
  induction pre with
  | nil =>
    intro acc
    simp [receiveFileLoop_stop acc stop air hstop]
  | cons p ps ih =>
    intro acc
    rw [List.cons_append, receiveFileLoop_data acc p _ (hpre p (List.mem_cons_self p ps)),
      ih (fun q hq => hpre q (List.mem_cons_of_mem p hq))]
    simp

/-- With no packet beginning with the sentinel the receiver never returns. -/
theorem receiveFileLoop_blocks (air : List Packet) (h : ∀ p ∈ air, ¬ str "EOF" <+: p) :
    ∀ acc : Bytes, receiveFileLoop acc air = none := by
  induction air with
  | nil => intro acc; rfl
  | cons p ps ih =>
    intro acc
    rw [receiveFileLoop_data acc p _ (h p (List.mem_cons_self p ps))]
    exact ih (fun q hq => h q (List.mem_cons_of_mem p hq)) _

/-- The numbers below `n` are those below `k`, then `k`, then the rest. -/
theorem range_split (k n : Nat) (h : k < n) :
    ∃ tl, List.range n = List.range k ++ k :: tl := by
  have e : n = k + ((n - k - 1) + 1) := by omega
  refine ⟨(List.range (n - k - 1)).map (fun i => k + Nat.succ i), ?_⟩
  conv_lhs => rw [e]
  rw [List.range_add, List.range_succ_eq_map, List.map_cons, List.map_map]
  rfl

/-! ## Text framing: the claims -/

/-- C1 (text round trip): a message that does not contain the bytes `EOF`, the
empty message included, sent by `sendMessage` or by `sendFile` and read by
`receiveFile` with no packet lost or reordered, comes back exactly; the packets
that follow the sentinel stay in the air. -/
theorem text_round_trip (M : Bytes) (hM : ¬ str "EOF" <:+: M) (air : List Packet) :
    receiveFile (sendMessage M ++ air) = some (M, air) ∧
    receiveFile (sendFile M ++ air) = some (M, air) := by
  have hch : ∀ k, ¬ str "EOF" <+: (M.drop (32 * k)).take 32 :=
    fun k hp => hM (List.IsInfix.trans hp.isInfix (chunk_is_piece M (32 * k) 32))
  have main : receiveFile (sendMessage M ++ air) = some (M, air) := by
    have h := receive_data_packets M hch (eofLiteral.take 4 :: air) M.length 0 [] (by omega)
    simp only [Nat.mul_zero, List.drop_zero, List.nil_append] at h
    simp only [receiveFile, sendMessage, List.append_assoc, List.singleton_append]
    rw [h]
    exact receiveFileLoop_stop M _ air sentinel_starts
  exact ⟨main, by rw [sendFile_eq_sendMessage]; exact main⟩

/-- C1 at a 43-byte message, sent in two data packets. -/
theorem text_round_trip_witness :
    ¬ str "EOF" <:+: str "the quick brown fox jumps over the lazy dog" ∧
    receiveFile (sendMessage (str "the quick brown fox jumps over the lazy dog") ++ []) =
      some (str "the quick brown fox jumps over the lazy dog", []) ∧
    receiveFile (sendFile (str "the quick brown fox jumps over the lazy dog") ++ []) =
      some (str "the quick brown fox jumps over the lazy dog", []) :=
  ⟨by decide, text_round_trip _ (by decide) []⟩

/-- C5 as stated fails: the message `xEOF` contains `EOF`, yet it is returned
whole, so no truncation at the occurrence takes place. -/
theorem sentinel_collision_counterexample :
    str "EOF" <:+: str "xEOF" ∧
    receiveFile (sendMessage (str "xEOF")) = some (str "xEOF", []) ∧
    ¬ ∀ M : Bytes, str "EOF" <:+: M →
        ∃ pos, str "EOF" <+: M.drop pos ∧
          (receiveFile (sendMessage M)).map Prod.fst = some (M.take pos) := by
  refine ⟨by decide, by decide, ?_⟩
  intro h
  obtain ⟨pos, hp, he⟩ := h (str "xEOF") (by decide)
  have e : (receiveFile (sendMessage (str "xEOF"))).map Prod.fst = some (str "xEOF") := by
    decide
  rw [e] at he
  have hl : ((str "xEOF").take pos).length = 4 := by
    rw [← Option.some.inj he]
    decide
  have hlen : (str "xEOF").length = 4 := by decide
  rw [List.length_take, hlen] at hl
  have hd : (str "xEOF").drop pos = [] := List.drop_of_length_le (by omega)
  rw [hd] at hp
  have := hp.length_le
  have h3 : (str "EOF").length = 3 := by decide
  rw [h3] at this
  simp at this

/-- C5 (sentinel collision), amended: when no chunk `j < k` begins with `EOF`,
(a) if chunk `k` (the bytes from offset `32 * k`) begins with `EOF`, reassembly
stops there and the text returned is the first `32 * k` bytes of the message;
(b) if the first `k` chunks are the whole message, it is returned whole, whether
or not `EOF` occurs inside a chunk. -/
theorem sentinel_collision_chunk_start (M : Bytes) (k : Nat) (air : List Packet)
    (hfirst : ∀ j, j < k → ¬ str "EOF" <+: M.drop (32 * j)) :
    (str "EOF" <+: M.drop (32 * k) →
      (receiveFile (sendMessage M ++ air)).map Prod.fst = some (M.take (32 * k)) ∧
      (receiveFile (sendFile M ++ air)).map Prod.fst = some (M.take (32 * k))) ∧
    (M.length ≤ 32 * k →
      receiveFile (sendMessage M ++ air) = some (M, air) ∧
      receiveFile (sendFile M ++ air) = some (M, air)) := by
  have h3 : (str "EOF").length = 3 := by decide
  have hpre : ∀ p ∈ (List.range k).map (fun i => (M.drop (32 * i)).take 32),
      ¬ str "EOF" <+: p := by
    intro p hp hpp
    obtain ⟨j, hj, rfl⟩ := List.mem_map.mp hp
    exact hfirst j (List.mem_range.mp hj) (List.prefix_take_iff.mp hpp).1
  constructor
  · intro hk
    have hlt : 32 * k < M.length := by
      have := hk.length_le
      rw [h3, List.length_drop] at this
      omega
    have hcnt : k < (M.length + 31) / 32 := by omega
    obtain ⟨tl, hsplit⟩ := range_split k ((M.length + 31) / 32) hcnt
    have main : (receiveFile (sendMessage M ++ air)).map Prod.fst = some (M.take (32 * k)) := by
      rw [sendMessage_eq_map, hsplit, List.map_append, List.map_cons]
      simp only [receiveFile, List.append_assoc, List.cons_append]
      rw [receiveFileLoop_run _ _ _ hpre (List.prefix_take_iff.mpr ⟨hk, by rw [h3]; omega⟩),
        flatten_chunks]
      rfl
    exact ⟨main, by rw [sendFile_eq_sendMessage]; exact main⟩
  · intro hlen
    have hch : ∀ j, ¬ str "EOF" <+: (M.drop (32 * j)).take 32 := by
      intro j hp
      have hp1 := (List.prefix_take_iff.mp hp).1
      by_cases hj : j < k
      · exact hfirst j hj hp1
      · have := hp1.length_le
        rw [h3, List.length_drop] at this
        have : 32 * k ≤ 32 * j := Nat.mul_le_mul_left 32 (by omega)
        omega
    have main : receiveFile (sendMessage M ++ air) = some (M, air) := by
      have h := receive_data_packets M hch (eofLiteral.take 4 :: air) M.length 0 [] (by omega)
      simp only [Nat.mul_zero, List.drop_zero, List.nil_append] at h
      simp only [receiveFile, sendMessage, List.append_assoc, List.singleton_append]
      rw [h]
      exact receiveFileLoop_stop M _ air sentinel_starts
    exact ⟨main, by rw [sendFile_eq_sendMessage]; exact main⟩

/-- C5 amended, at a message with `EOF` at offset 32 (cut to 32 bytes) and at
`xEOF` (returned whole). -/
theorem sentinel_collision_chunk_start_witness :
    ((∀ j, j < 1 → ¬ str "EOF" <+: (str "0123456789abcdef0123456789abcdefEOF and more").drop (32 * j)) ∧
      str "EOF" <+: (str "0123456789abcdef0123456789abcdefEOF and more").drop (32 * 1) ∧
      (receiveFile (sendMessage (str "0123456789abcdef0123456789abcdefEOF and more") ++ [])).map
          Prod.fst = some ((str "0123456789abcdef0123456789abcdefEOF and more").take (32 * 1))) ∧
    ((∀ j, j < 1 → ¬ str "EOF" <+: (str "xEOF").drop (32 * j)) ∧
      (str "xEOF").length ≤ 32 * 1 ∧
      receiveFile (sendMessage (str "xEOF") ++ []) = some (str "xEOF", [])) :=
  ⟨⟨by decide, by decide,
      ((sentinel_collision_chunk_start _ 1 [] (by decide)).1 (by decide)).1⟩,
    ⟨by decide, by decide,
      ((sentinel_collision_chunk_start (str "xEOF") 1 [] (by decide)).2 (by decide)).1⟩⟩

/-- C6 as stated fails: the packet `EOFs`, which `sendMessage` writes for the
message `EOFs`, is neither of the two sentinel forms, yet the receiver stops at it. -/
theorem sentinel_recognition_counterexample :
    str "EOFs" ≠ str "EOF" ∧ str "EOFs" ≠ str "EOF" ++ [0] ∧
    sendMessage (str "EOFs") = [str "EOFs", str "EOF" ++ [0]] ∧
    receiveFile (sendMessage (str "EOFs")) = some ([], [str "EOF" ++ [0]]) ∧
    ¬ ∀ (acc : Bytes) (p : Packet) (air : List Packet),
        receiveFileLoop acc (p :: air) = some (acc, air) ↔
          (p = str "EOF" ∨ p = str "EOF" ++ [0]) := by
  refine ⟨by decide, by decide, by decide, by decide, ?_⟩
  intro h
  have h1 := (h [] (str "EOFs") []).mp (by decide)
  revert h1
  decide

/-- C6 (text sentinel recognition), amended: the receiver stops at the first
packet whose first three bytes are `EOF`; the 3-byte `EOF` and the 4-byte
`EOF` with NUL are two such packets. Every packet that does not begin with
`EOF` is appended whole, in arrival order, and the text returned is the
concatenation of the packets before the stopping one. -/
theorem sentinel_recognition_stop (pre : List Packet) (stop : Packet) (air : List Packet)
    (hpre : ∀ p ∈ pre, ¬ str "EOF" <+: p) (hstop : str "EOF" <+: stop) :
    receiveFile (pre ++ stop :: air) = some (pre.flatten, air) ∧
    receiveFile (pre ++ str "EOF" :: air) = some (pre.flatten, air) ∧
    receiveFile (pre ++ (str "EOF" ++ [0]) :: air) = some (pre.flatten, air) ∧
    (∀ (acc : Bytes) (p : Packet), ¬ str "EOF" <+: p →
      receiveFileLoop acc (p :: air) = receiveFileLoop (acc ++ p) air) ∧
    (∀ (acc : Bytes) (p : Packet), str "EOF" <+: p →
      receiveFileLoop acc (p :: air) = some (acc, air)) := by
  refine ⟨?_, ?_, ?_, ?_, ?_⟩
  · simpa [receiveFile] using receiveFileLoop_run pre stop air hpre hstop []
  · simpa [receiveFile] using receiveFileLoop_run pre (str "EOF") air hpre (by decide) []
  · simpa [receiveFile] using
      receiveFileLoop_run pre (str "EOF" ++ [0]) air hpre (by decide) []
  · exact fun acc p hp => receiveFileLoop_data acc p air hp
  · exact fun acc p hp => receiveFileLoop_stop acc p air hp

/-- C6 amended, at a stream whose packets `E`, `OF` and `xEOF` are appended and
whose packet `EOFs` stops the receiver. -/
theorem sentinel_recognition_stop_witness :
    (∀ p ∈ [str "ab", str "E", str "OF", str "xEOF"], ¬ str "EOF" <+: p) ∧
    str "EOF" <+: str "EOFs" ∧
    receiveFile ([str "ab", str "E", str "OF", str "xEOF"] ++ str "EOFs" :: [str "cd"]) =
      some (str "abEOFxEOF", [str "cd"]) :=
  ⟨by decide, by decide,
    (sentinel_recognition_stop [str "ab", str "E", str "OF", str "xEOF"] (str "EOFs") [str "cd"]
      (by decide) (by decide)).1⟩

/-- C10 (text transmit chunking): `sendMessage` and `sendFile` write
`ceil(n / 32)` data packets and then one sentinel packet `EOF` with its NUL;
data packet `k` holds the bytes from `32 * k` up to `min (32 * k + 32) n`;
every data packet is non-empty, all but the last have 32 bytes, together they
are the message, and the empty message gives the sentinel packet alone. -/
theorem text_transmit_chunking (M : Bytes) :
    ∃ data : List Packet,
      sendMessage M = data ++ [str "EOF" ++ [0]] ∧
      sendFile M = data ++ [str "EOF" ++ [0]] ∧
      data.length = (M.length + 31) / 32 ∧
      32 * (data.length - 1) ≤ M.length ∧ M.length ≤ 32 * data.length ∧
      (∀ k, k < data.length →
        data[k]? = some ((M.drop (32 * k)).take (min (32 * k + 32) M.length - 32 * k))) ∧
      (∀ p ∈ data, p ≠ []) ∧
      (∀ k p, k + 1 < data.length → data[k]? = some p → p.length = 32) ∧
      data.flatten = M ∧
      (M = [] → sendMessage M = [str "EOF" ++ [0]]) := by
  have hk : ∀ k, k < (M.length + 31) / 32 →
      ((List.range ((M.length + 31) / 32)).map (fun k => (M.drop (32 * k)).take 32))[k]? =
        some ((M.drop (32 * k)).take 32) := by
    intro k hk
    rw [List.getElem?_map, List.getElem?_range hk]
    rfl
  refine ⟨(List.range ((M.length + 31) / 32)).map (fun k => (M.drop (32 * k)).take 32),
    sendMessage_eq_map M, by rw [sendFile_eq_sendMessage]; exact sendMessage_eq_map M,
    by simp, by simp; omega, by simp; omega, ?_, ?_, ?_, ?_, ?_⟩
  · intro k h
    rw [List.length_map, List.length_range] at h
    rw [hk k h]
    congr 1
    by_cases hle : 32 * k + 32 ≤ M.length
    · rw [Nat.min_eq_left hle, Nat.add_sub_cancel_left]
    · rw [Nat.min_eq_right (by omega), List.take_of_length_le (by simp; omega),
        List.take_of_length_le (by simp)]
  · intro p hp
    obtain ⟨j, hj, rfl⟩ := List.mem_map.mp hp
    have hj := List.mem_range.mp hj
    intro h0
    have := congrArg List.length h0
    simp only [List.length_take, List.length_drop, List.length_nil] at this
    omega
  · intro k p h hp
    rw [List.length_map, List.length_range] at h
    rw [hk k (by omega)] at hp
    rw [← Option.some.inj hp]
    simp only [List.length_take, List.length_drop]
    omega
  · rw [flatten_chunks, List.take_of_length_le (by omega)]
  · intro h
    subst h
    decide

/-! ## Emergency classifier: the claim -/

/-- `find` reports a position exactly when the word occurs as a contiguous piece. -/
theorem findFrom_ne_none_iff (word : Bytes) :
    ∀ (hay : Bytes) (pos : Nat), findFrom word hay pos ≠ none ↔ word <:+: hay := by
  intro hay
  induction hay with
  | nil =>
    intro pos
    simp only [findFrom, List.infix_nil]
    by_cases h : word = [] <;> simp [h]
  | cons c rest ih =>
    intro pos
    simp only [findFrom, List.infix_cons_iff]
    by_cases h : word.isPrefixOf (c :: rest) = true
    · rw [if_pos h]
      simp [List.isPrefixOf_iff_prefix.mp h]
    · rw [if_neg h, ih (pos + 1)]
      have : ¬ word <+: c :: rest := fun hp => h (List.isPrefixOf_iff_prefix.mpr hp)
      simp [this]

theorem keywordLoop_iff (lower : Bytes) (ws : List Bytes) :
    keywordLoop lower ws = true ↔ ∃ w ∈ ws, w <:+: lower := by
  induction ws with
  | nil => simp [keywordLoop]
  | cons w more ih =>
    simp only [keywordLoop, List.mem_cons, exists_eq_or_imp]
    by_cases h : find lower w ≠ none
    · rw [if_pos h]
      simp [(findFrom_ne_none_iff w lower 0).mp h]
    · rw [if_neg h, ih]
      have : ¬ w <:+: lower := fun hw => h ((findFrom_ne_none_iff w lower 0).mpr hw)
      simp [this]

/-- C8 (emergency classifier): `detectEmergencyKeywords` is true exactly when the
message with `A`..`Z` lower-cased contains one of the five keywords as a
contiguous piece, without any word-boundary check; it is true for
"This is an EMERGENCY", "need hELp now" and "I am a helper" and false for
"no issues here". -/
theorem emergency_classifier :
    (∀ message : Bytes, detectEmergencyKeywords message = true ↔
      ∃ w ∈ [str "emergency", str "help", str "urgent", str "danger", str "alarm"],
        w <:+: message.map (fun ch => if 65 ≤ ch ∧ ch ≤ 90 then ch + 32 else ch)) ∧
    detectEmergencyKeywords (str "This is an EMERGENCY") = true ∧
    detectEmergencyKeywords (str "need hELp now") = true ∧
    detectEmergencyKeywords (str "I am a helper") = true ∧
    detectEmergencyKeywords (str "no issues here") = false := by
  refine ⟨fun message => ?_, by decide, by decide, by decide, by decide⟩
  simp only [detectEmergencyKeywords]
  exact keywordLoop_iff _ _

/-! ## Helper lemmas: voice receiver -/

theorem decodeFrames_snoc {σ : Type} (c : Codec σ) (frames : List Bytes) (f : Bytes) :
    decodeFrames c (frames ++ [f]) =
      ((c.decode (decodeFrames c frames).1 f).1,
        (decodeFrames c frames).2 ++ (c.decode (decodeFrames c frames).1 f).2) := by
  simp [decodeFrames, List.foldl_append]

theorem stsInv_init {σ : Type} (c : Codec σ) :
    StsInv c [] 0 { codec2 := c.create, buffer := [], allSamples := [], decoded := [] } := by
  simp [StsInv, decodeFrames]

/-- Appending a payload to the buffer keeps the invariant for the longer stream. -/
theorem stsInv_append {σ : Type} (c : Codec σ) (B P : Bytes) (q : Nat) (s : StsState σ)
    (h : StsInv c B q s) :
    StsInv c (B ++ P) q { s with buffer := s.buffer ++ P } := by
  obtain ⟨hlen, hbuf, hdec, hcod⟩ := h
  refine ⟨?_, ?_, ?_, hcod⟩
  · simp only [List.length_append]
    omega
  · simp only
    rw [hbuf, List.drop_append_of_le_length (by omega)]
  · simp only
    rw [hdec]
    apply List.map_congr_left
    intro k hk
    have hk := List.mem_range.mp hk
    have h1 : (k + 1) * c.nbytes ≤ q * c.nbytes := Nat.mul_le_mul_right _ (by omega)
    rw [Nat.succ_mul] at h1
    rw [List.drop_append_of_le_length (by omega),
      List.take_append_of_le_length (by rw [List.length_drop]; omega)]

/-- One pass of the inner loop moves one frame from the buffer to the decoder. -/
theorem stsInv_step {σ : Type} (c : Codec σ) (B : Bytes) (q : Nat) (s : StsState σ)
    (h : StsInv c B q s) (hge : s.buffer.length ≥ c.nbytes) :
    StsInv c B (q + 1)
      { codec2 := (c.decode s.codec2 (s.buffer.take c.nbytes)).1
        buffer := s.buffer.drop c.nbytes
        allSamples := s.allSamples ++ (c.decode s.codec2 (s.buffer.take c.nbytes)).2
        decoded := s.decoded ++ [s.buffer.take c.nbytes] } := by
  obtain ⟨hlen, hbuf, hdec, hcod⟩ := h
  refine ⟨?_, ?_, ?_, ?_⟩
  · simp only [List.length_drop, Nat.succ_mul]
    omega
  · simp only
    rw [hbuf, List.drop_drop, Nat.succ_mul]
  · simp only
    rw [List.range_succ, List.map_append, ← hdec, hbuf]
    rfl
  · simp only
    rw [decodeFrames_snoc, ← hcod]

/-- For a frame size of at least 1 the inner loop exits, with less than one
frame left in the buffer. -/
theorem decodeLoop_spec {σ : Type} (c : Codec σ) (hF : 1 ≤ c.nbytes) (B : Bytes) :
    ∀ (fuel q : Nat) (s : StsState σ), StsInv c B q s → s.buffer.length < fuel →
      ∃ s1 q1, decodeLoop c fuel s = some s1 ∧ StsInv c B q1 s1 ∧
        s1.buffer.length < c.nbytes := by
  intro fuel
  induction fuel with
  | zero => intro q s _ hf; omega
  | succ n ih =>
    intro q s hinv hf
    by_cases hge : s.buffer.length ≥ c.nbytes
    · have hstep := stsInv_step c B q s hinv hge
      obtain ⟨s1, q1, h1, h2, h3⟩ := ih (q + 1) _ hstep (by simp only [List.length_drop]; omega)
      refine ⟨s1, q1, ?_, h2, h3⟩
      simp only [decodeLoop]
      rw [if_pos hge]
      exact h1
    · refine ⟨s, q, ?_, hinv, by omega⟩
      simp only [decodeLoop]
      rw [if_neg hge]

/-- With less than a frame in the buffer the number of frames out is the quotient. -/
theorem stsInv_final {σ : Type} (c : Codec σ) (B : Bytes) (q : Nat) (s : StsState σ)
    (h : StsInv c B q s) (hlt : s.buffer.length < c.nbytes) :
    q = B.length / c.nbytes ∧ s.buffer.length = B.length % c.nbytes := by
  obtain ⟨hlen, -, -, -⟩ := h
  have hpos : 0 < c.nbytes := by omega
  have e : B.length = s.buffer.length + q * c.nbytes := by omega
  constructor
  · rw [e, Nat.add_mul_div_right _ _ hpos, Nat.div_eq_of_lt hlt, Nat.zero_add]
  · rw [e, Nat.add_mul_mod_self_right, Nat.mod_eq_of_lt hlt]

theorem payloadStream_cons_accepted (p : Packet) (ps : List Packet) (h : accepted p = true) :
    payloadStream (p :: ps) = (p.drop 1).take (p.getD 0 0) ++ payloadStream ps := by
  simp [payloadStream, List.filter_cons, h]

theorem payloadStream_cons_rejected (p : Packet) (ps : List Packet) (h : accepted p = false) :
    payloadStream (p :: ps) = payloadStream ps := by
  simp [payloadStream, List.filter_cons, h]

theorem stsPacket_brk {σ : Type} (c : Codec σ) (s : StsState σ) (p : Packet)
    (h : p.getD 0 0 = 255) : stsPacket c s p = Flow.brk := by
  simp only [stsPacket]
  rw [if_pos h]

theorem stsPacket_skip {σ : Type} (c : Codec σ) (s : StsState σ) (p : Packet)
    (h : p.getD 0 0 ≠ 255) (ha : accepted p = false) : stsPacket c s p = Flow.cont s := by
  have h2 : p.getD 0 0 = 0 ∨ p.getD 0 0 > PACKET_SIZE - 1 := by
    simp only [accepted, decide_eq_false_iff_not] at ha
    simp only [PACKET_SIZE]
    omega
  simp only [stsPacket]
  rw [if_neg h, if_pos h2]

theorem stsPacket_accept {σ : Type} (c : Codec σ) (s : StsState σ) (p : Packet)
    (ha : accepted p = true) :
    stsPacket c s p =
      match decodeLoop c ((s.buffer ++ (p.drop 1).take (p.getD 0 0)).length + 1)
          { s with buffer := s.buffer ++ (p.drop 1).take (p.getD 0 0) } with
      | none => Flow.hang
      | some s1 => Flow.cont s1 := by
  simp only [accepted, decide_eq_true_eq] at ha
  have h1 : ¬ p.getD 0 0 = 255 := by omega
  have h2 : ¬ (p.getD 0 0 = 0 ∨ p.getD 0 0 > PACKET_SIZE - 1) := by
    simp only [PACKET_SIZE]
    omega
  simp only [stsPacket]
  rw [if_neg h1, if_neg h2]

/-- The outer loop over a stretch of packets without end marker, then an end
marker: it returns at the end marker, and the invariant then holds for the
stream extended by the accepted payloads. -/
theorem receiveSTSLoop_spec {σ : Type} (c : Codec σ) (hF : 1 ≤ c.nbytes) (e : Packet)
    (air : List Packet) (he : e.getD 0 0 = 255) :
    ∀ (body : List Packet) (B : Bytes) (q : Nat) (s : StsState σ),
      (∀ p ∈ body, p.getD 0 0 ≠ 255) → StsInv c B q s → s.buffer.length < c.nbytes →
      ∃ s1 q1, receiveSTSLoop c s (body ++ e :: air) = some (s1, air) ∧
        StsInv c (B ++ payloadStream body) q1 s1 ∧ s1.buffer.length < c.nbytes := by
  intro body
  induction body with
  | nil =>
    intro B q s _ hinv hlt
    refine ⟨s, q, ?_, by simpa [payloadStream] using hinv, hlt⟩
    simp only [List.nil_append, receiveSTSLoop]
    rw [stsPacket_brk c s e he]
  | cons p ps ih =>
    intro B q s hb hinv hlt
    have hp := hb p (List.mem_cons_self p ps)
    have hps : ∀ x ∈ ps, x.getD 0 0 ≠ 255 := fun x hx => hb x (List.mem_cons_of_mem p hx)
    cases ha : accepted p with
    | false =>
      obtain ⟨s1, q1, h1, h2, h3⟩ := ih B q s hps hinv hlt
      refine ⟨s1, q1, ?_, by rw [payloadStream_cons_rejected p ps ha]; exact h2, h3⟩
      simp only [List.cons_append, receiveSTSLoop]
      rw [stsPacket_skip c s p hp ha]
      exact h1
    | true =>
      have hinv1 := stsInv_append c B ((p.drop 1).take (p.getD 0 0)) q s hinv
      obtain ⟨s0, q0, hd, hinv0, hlt0⟩ :=
        decodeLoop_spec c hF _ _ q _ hinv1 (Nat.lt_succ_self _)
      obtain ⟨s1, q1, h1, h2, h3⟩ := ih _ q0 s0 hps hinv0 hlt0
      refine ⟨s1, q1, ?_, ?_, h3⟩
      · simp only [List.cons_append, receiveSTSLoop]
        rw [stsPacket_accept c s p ha, hd]
        exact h1
      · rw [payloadStream_cons_accepted p ps ha, ← List.append_assoc]
        exact h2

/-- For 32-byte packets every accepted payload has its declared length. -/
theorem payloadStream_length (body : List Packet) (h : ∀ p ∈ body, p.length = 32) :
    (payloadStream body).length = declaredTotal body := by
  induction body with
  | nil => rfl
  | cons p ps ih =>
    have ihh := ih (fun x hx => h x (List.mem_cons_of_mem p hx))
    have hp := h p (List.mem_cons_self p ps)
    cases ha : accepted p with
    | false =>
      rw [payloadStream_cons_rejected p ps ha, ihh]
      simp [declaredTotal, List.filter_cons, ha]
    | true =>
      rw [payloadStream_cons_accepted p ps ha, List.length_append, ihh]
      have hd : declaredTotal (p :: ps) = p.getD 0 0 + declaredTotal ps := by
        simp [declaredTotal, List.filter_cons, ha]
      simp only [accepted, decide_eq_true_eq] at ha
      have : ((p.drop 1).take (p.getD 0 0)).length = p.getD 0 0 := by
        rw [List.length_take, List.length_drop, hp]
        omega
      rw [this, hd]

/-- A whole session: packets without end marker, then the end marker. The
receiver returns there, having decoded the whole frames of the accepted bytes. -/
theorem receiveSTS_spec {σ : Type} (c : Codec σ) (hF : 1 ≤ c.nbytes) (body : List Packet)
    (e : Packet) (air : List Packet) (hb : ∀ p ∈ body, p.getD 0 0 ≠ 255)
    (he : e.getD 0 0 = 255) :
    ∃ s : StsState σ, receiveSTS c (body ++ e :: air) = some (s, air) ∧
      s.decoded = framesOf c.nbytes (payloadStream body) ∧
      s.buffer = (payloadStream body).drop ((payloadStream body).length / c.nbytes * c.nbytes) ∧
      s.buffer.length = (payloadStream body).length % c.nbytes ∧
      (s.codec2, s.allSamples) = decodeFrames c (framesOf c.nbytes (payloadStream body)) := by
  obtain ⟨s1, q1, h1, h2, h3⟩ :=
    receiveSTSLoop_spec c hF e air he body [] 0 _ hb (stsInv_init c) (by simp; omega)
  rw [List.nil_append] at h2
  obtain ⟨hq, hm⟩ := stsInv_final c _ q1 s1 h2 h3
  obtain ⟨-, hbuf, hdec, hcod⟩ := h2
  subst hq
  exact ⟨s1, h1, hdec, hbuf, hm, by rw [hcod, hdec]; rfl⟩

theorem framesOf_length (F : Nat) (B : Bytes) : (framesOf F B).length = B.length / F := by
  simp [framesOf]

theorem framesOf_getElem? (F : Nat) (B : Bytes) (k : Nat) (hk : k < B.length / F) :
    (framesOf F B)[k]? = some ((B.drop (k * F)).take F) := by
  simp only [framesOf]
  rw [List.getElem?_map, List.getElem?_range hk]
  rfl

theorem framesOf_frame_length (F : Nat) (B : Bytes) : ∀ f ∈ framesOf F B, f.length = F := by
  intro f hf
  obtain ⟨k, hk, rfl⟩ := List.mem_map.mp hf
  have hk := List.mem_range.mp hk
  have h1 : (k + 1) * F ≤ B.length / F * F := Nat.mul_le_mul_right _ (by omega)
  have h2 := Nat.div_mul_le_self B.length F
  rw [Nat.succ_mul] at h1
  rw [List.length_take, List.length_drop]
  omega

/-- The inner loop from any state, for a frame size of at least 1: it exits,
no byte is lost or invented, and less than one frame stays in the buffer. -/
theorem decodeLoop_conserve {σ : Type} (c : Codec σ) (hF : 1 ≤ c.nbytes) :
    ∀ (fuel : Nat) (s : StsState σ), s.buffer.length < fuel →
      ∃ s1, decodeLoop c fuel s = some s1 ∧
        s1.decoded.flatten ++ s1.buffer = s.decoded.flatten ++ s.buffer ∧
        s1.buffer.length < c.nbytes := by
  intro fuel
  induction fuel with
  | zero => intro s hf; omega
  | succ n ih =>
    intro s hf
    by_cases hge : s.buffer.length ≥ c.nbytes
    · obtain ⟨s1, h1, h2, h3⟩ := ih
        { codec2 := (c.decode s.codec2 (s.buffer.take c.nbytes)).1
          buffer := s.buffer.drop c.nbytes
          allSamples := s.allSamples ++ (c.decode s.codec2 (s.buffer.take c.nbytes)).2
          decoded := s.decoded ++ [s.buffer.take c.nbytes] }
        (by simp only [List.length_drop]; omega)
      refine ⟨s1, ?_, ?_, h3⟩
      · simp only [decodeLoop]
        rw [if_pos hge]
        exact h1
      · rw [h2]
        simp
    · refine ⟨s, ?_, rfl, by omega⟩
      simp only [decodeLoop]
      rw [if_neg hge]

/-- The first `q` pieces of `F` bytes put together are the first `q * F` bytes. -/
theorem flatten_frames (F : Nat) (B : Bytes) (q : Nat) :
    ((List.range q).map (fun k => (B.drop (k * F)).take F)).flatten = B.take (q * F) := by
  induction q with
  | zero => simp
  | succ n ih =>
    rw [List.range_succ, List.map_append, List.flatten_append, ih, Nat.succ_mul, List.take_add]
    simp

/-! ## Voice receiver: the claims -/

/-- C2 (chunk-boundary invariance): for a frame size of at least 1, two packet
sequences of 32-byte packets with control bytes in 0..254, each followed by an
end marker (control byte 255), whose accepted payloads concatenate to the same
stream `B`, make `receiveSTS` return with the same frames handed to the
decoder, each of the frame size, and the same decoded samples. -/
theorem chunk_boundary_invariance {σ : Type} (c : Codec σ) (hF : 1 ≤ c.nbytes) (B : Bytes)
    (body1 body2 : List Packet) (e1 e2 : Packet) (air1 air2 : List Packet)
    (h1 : ∀ p ∈ body1, p.length = 32 ∧ p.getD 0 0 ≤ 254)
    (h2 : ∀ p ∈ body2, p.length = 32 ∧ p.getD 0 0 ≤ 254)
    (he1 : e1.length = 32 ∧ e1.getD 0 0 = 255) (he2 : e2.length = 32 ∧ e2.getD 0 0 = 255)
    (hB1 : payloadStream body1 = B) (hB2 : payloadStream body2 = B) :
    ∃ s1 s2 : StsState σ,
      receiveSTS c (body1 ++ e1 :: air1) = some (s1, air1) ∧
      receiveSTS c (body2 ++ e2 :: air2) = some (s2, air2) ∧
      s1.decoded = s2.decoded ∧ s1.allSamples = s2.allSamples ∧
      (∀ f ∈ s1.decoded, f.length = c.nbytes) := by
  obtain ⟨s1, r1, d1, -, -, c1⟩ := receiveSTS_spec c hF body1 e1 air1
    (fun p hp => by have := (h1 p hp).2; omega) he1.2
  obtain ⟨s2, r2, d2, -, -, c2⟩ := receiveSTS_spec c hF body2 e2 air2
    (fun p hp => by have := (h2 p hp).2; omega) he2.2
  rw [hB1] at d1 c1
  rw [hB2] at d2 c2
  refine ⟨s1, s2, r1, r2, by rw [d1, d2], ?_, ?_⟩
  · have := c1.trans c2.symm
    exact (Prod.mk.inj this).2
  · rw [d1]
    exact framesOf_frame_length _ _

/-- C3 (remainder discard): for a frame size `F` of at least 1 and 32-byte
packets up to the first end marker, `receiveSTS` returns having decoded exactly
`floor (T / F)` frames, `T` the sum of the declared lengths of the accepted
packets; frame `k` is bytes `[k * F, (k + 1) * F)` of the concatenated accepted
payloads; the last `T mod F` bytes are still in the buffer, undecoded, when
the session ends. -/
theorem remainder_discard {σ : Type} (c : Codec σ) (hF : 1 ≤ c.nbytes) (body : List Packet)
    (e : Packet) (air : List Packet)
    (hb : ∀ p ∈ body, p.length = 32 ∧ p.getD 0 0 ≠ 255) (he : e.getD 0 0 = 255) :
    ∃ s : StsState σ, receiveSTS c (body ++ e :: air) = some (s, air) ∧
      (payloadStream body).length = declaredTotal body ∧
      s.decoded.length = declaredTotal body / c.nbytes ∧
      (∀ k, k < declaredTotal body / c.nbytes →
        s.decoded[k]? = some (((payloadStream body).drop (k * c.nbytes)).take c.nbytes)) ∧
      s.buffer = (payloadStream body).drop (declaredTotal body / c.nbytes * c.nbytes) ∧
      s.buffer.length = declaredTotal body % c.nbytes ∧
      s.decoded.flatten ++ s.buffer = payloadStream body ∧
      s.allSamples = (decodeFrames c s.decoded).2 := by
  obtain ⟨s, r, d, b, m, cd⟩ := receiveSTS_spec c hF body e air (fun p hp => (hb p hp).2) he
  have hT := payloadStream_length body (fun p hp => (hb p hp).1)
  rw [hT] at b m
  refine ⟨s, r, hT, ?_, ?_, b, m, ?_, ?_⟩
  · rw [d, framesOf_length, hT]
  · intro k hk
    rw [d]
    exact framesOf_getElem? _ _ k (by rw [hT]; exact hk)
  · obtain ⟨s1, q1, g1, g2, g3⟩ := receiveSTSLoop_spec c hF e air he body [] 0 _
      (fun p hp => (hb p hp).2) (stsInv_init c) (by simp; omega)
    have hs : s1 = s := by
      have := g1.symm.trans r
      exact (Prod.mk.inj (Option.some.inj this)).1
    subst hs
    rw [List.nil_append] at g2
    obtain ⟨-, hbuf, hdec, -⟩ := g2
    rw [hdec, hbuf]
    have := flatten_frames c.nbytes (payloadStream body) q1
    rw [this, List.take_append_drop]
  · rw [← d] at cd
    exact (Prod.mk.inj cd).2

/-- C2 at two ways of carrying the stream 1..7, frame size 3. -/
theorem chunk_boundary_invariance_witness :
    (1 ≤ (sumCodec 3).nbytes) ∧
    (∀ p ∈ sampleBodyA, p.length = 32 ∧ p.getD 0 0 ≤ 254) ∧
    (∀ p ∈ sampleBodyB, p.length = 32 ∧ p.getD 0 0 ≤ 254) ∧
    payloadStream sampleBodyA = [1, 2, 3, 4, 5, 6, 7] ∧
    payloadStream sampleBodyB = [1, 2, 3, 4, 5, 6, 7] ∧
    ∃ s1 s2 : StsState Nat,
      receiveSTS (sumCodec 3) (sampleBodyA ++ eofPacket :: []) = some (s1, []) ∧
      receiveSTS (sumCodec 3) (sampleBodyB ++ (255 :: List.replicate 31 0) :: [[1]]) =
        some (s2, [[1]]) ∧
      s1.decoded = s2.decoded ∧ s1.allSamples = s2.allSamples ∧
      (∀ f ∈ s1.decoded, f.length = (sumCodec 3).nbytes) :=
  ⟨by decide, by decide, by decide, by decide, by decide,
    chunk_boundary_invariance (sumCodec 3) (by decide) [1, 2, 3, 4, 5, 6, 7]
      sampleBodyA sampleBodyB eofPacket (255 :: List.replicate 31 0) [] [[1]]
      (by decide) (by decide) (by decide) (by decide) (by decide) (by decide)⟩

/-- C3 at seven accepted bytes and frame size 3: two frames, one byte left. -/
theorem remainder_discard_witness :
    (1 ≤ (sumCodec 3).nbytes) ∧
    (∀ p ∈ sampleBodyB, p.length = 32 ∧ p.getD 0 0 ≠ 255) ∧
    declaredTotal sampleBodyB = 7 ∧
    ∃ s : StsState Nat, receiveSTS (sumCodec 3) (sampleBodyB ++ eofPacket :: []) = some (s, []) ∧
      (payloadStream sampleBodyB).length = declaredTotal sampleBodyB ∧
      s.decoded.length = declaredTotal sampleBodyB / (sumCodec 3).nbytes ∧
      (∀ k, k < declaredTotal sampleBodyB / (sumCodec 3).nbytes →
        s.decoded[k]? = some (((payloadStream sampleBodyB).drop (k * (sumCodec 3).nbytes)).take
          (sumCodec 3).nbytes)) ∧
      s.buffer = (payloadStream sampleBodyB).drop
        (declaredTotal sampleBodyB / (sumCodec 3).nbytes * (sumCodec 3).nbytes) ∧
      s.buffer.length = declaredTotal sampleBodyB % (sumCodec 3).nbytes ∧
      s.decoded.flatten ++ s.buffer = payloadStream sampleBodyB ∧
      s.allSamples = (decodeFrames (sumCodec 3) s.decoded).2 :=
  ⟨by decide, by decide, by decide,
    remainder_discard (sumCodec 3) (by decide) sampleBodyB eofPacket [] (by decide) (by decide)⟩

/-- C4 (per-packet handling): for a 32-byte packet with control byte `c0` in
front of the air, (i) `c0 = 255` ends the session with the state as it is,
nothing more decoded; (ii) `c0 = 0` or `32 ≤ c0 ≤ 254` leaves the whole state
(buffer, output) as it is and goes on to the next packet; (iii) `1 ≤ c0 ≤ 31`
appends exactly the `c0` bytes `packet[1 .. 1 + c0)` to the buffer and then
runs frame extraction, the slice lying inside the packet; for a frame size of
at least 1 the extraction ends, keeps every byte either in a decoded frame or
in the buffer, and leaves less than one frame buffered. -/
theorem per_packet_handling {σ : Type} (c : Codec σ) (s : StsState σ) (packet : Packet)
    (air : List Packet) (hlen : packet.length = 32) :
    (packet.getD 0 0 = 255 →
      stsPacket c s packet = Flow.brk ∧ receiveSTSLoop c s (packet :: air) = some (s, air)) ∧
    (packet.getD 0 0 = 0 ∨ (32 ≤ packet.getD 0 0 ∧ packet.getD 0 0 ≤ 254) →
      stsPacket c s packet = Flow.cont s ∧
      receiveSTSLoop c s (packet :: air) = receiveSTSLoop c s air) ∧
    (1 ≤ packet.getD 0 0 ∧ packet.getD 0 0 ≤ 31 →
      1 + packet.getD 0 0 ≤ packet.length ∧
      ((packet.drop 1).take (packet.getD 0 0)).length = packet.getD 0 0 ∧
      (∀ i, i < packet.getD 0 0 →
        ((packet.drop 1).take (packet.getD 0 0))[i]? = packet[1 + i]?) ∧
      stsPacket c s packet =
        (match decodeLoop c (s.buffer.length + packet.getD 0 0 + 1)
            { s with buffer := s.buffer ++ (packet.drop 1).take (packet.getD 0 0) } with
          | none => Flow.hang
          | some s1 => Flow.cont s1) ∧
      (1 ≤ c.nbytes → ∃ s1, stsPacket c s packet = Flow.cont s1 ∧
        receiveSTSLoop c s (packet :: air) = receiveSTSLoop c s1 air ∧
        s1.decoded.flatten ++ s1.buffer =
          s.decoded.flatten ++ (s.buffer ++ (packet.drop 1).take (packet.getD 0 0)) ∧
        s1.buffer.length < c.nbytes)) := by
  refine ⟨fun h => ?_, fun h => ?_, fun h => ?_⟩
  · have hb := stsPacket_brk c s packet h
    refine ⟨hb, ?_⟩
    simp only [receiveSTSLoop]
    rw [hb]
  · have hb := stsPacket_skip c s packet (by omega)
      (by simp only [accepted, decide_eq_false_iff_not]; omega)
    refine ⟨hb, ?_⟩
    simp only [receiveSTSLoop]
    rw [hb]
  · have ha : accepted packet = true := by
      simp only [accepted, decide_eq_true_eq]
      exact h
    have hl : ((packet.drop 1).take (packet.getD 0 0)).length = packet.getD 0 0 := by
      rw [List.length_take, List.length_drop, hlen]
      omega
    have hp := stsPacket_accept c s packet ha
    rw [List.length_append, hl] at hp
    refine ⟨by omega, hl, ?_, hp, ?_⟩
    · intro i hi
      rw [List.getElem?_take_of_lt hi, List.getElem?_drop]
    · intro hF
      obtain ⟨s1, h1, h2, h3⟩ := decodeLoop_conserve c hF
        (s.buffer.length + packet.getD 0 0 + 1)
        { s with buffer := s.buffer ++ (packet.drop 1).take (packet.getD 0 0) }
        (by simp only [List.length_append, hl]; omega)
      rw [h1] at hp
      refine ⟨s1, hp, ?_, h2, h3⟩
      simp only [receiveSTSLoop]
      rw [hp]

/-- C4 at an accepted packet of three bytes arriving on a one-byte buffer, frame size 2. -/
theorem per_packet_handling_witness :
    (3 :: ([10, 20, 30] ++ List.replicate 28 0)).length = 32 ∧
    ∃ s1, stsPacket (sumCodec 2) { codec2 := 0, buffer := [1], allSamples := [], decoded := [] }
        (3 :: ([10, 20, 30] ++ List.replicate 28 0)) = Flow.cont s1 ∧
      receiveSTSLoop (sumCodec 2) { codec2 := 0, buffer := [1], allSamples := [], decoded := [] }
        ((3 :: ([10, 20, 30] ++ List.replicate 28 0)) :: [eofPacket]) =
        receiveSTSLoop (sumCodec 2) s1 [eofPacket] ∧
      s1.decoded.flatten ++ s1.buffer = [].flatten ++ ([1] ++ [10, 20, 30]) ∧
      s1.buffer.length < 2 :=
  ⟨by decide,
    ((per_packet_handling (sumCodec 2)
      { codec2 := 0, buffer := [1], allSamples := [], decoded := [] }
      (3 :: ([10, 20, 30] ++ List.replicate 28 0)) [eofPacket] (by decide)).2.2
        (by decide)).2.2.2.2 (by decide)⟩

/-! ## Voice transmitter -/

theorem take_min_length (n : Nat) (l : Bytes) : l.take (min n l.length) = l.take n := by
  by_cases hle : n ≤ l.length
  · rw [Nat.min_eq_left hle]
  · rw [Nat.min_eq_right (by omega), List.take_of_length_le (Nat.le_refl _),
      List.take_of_length_le (by omega)]

theorem framePacketsLoop_done (frame : Bytes) (fuel sent : Nat) (h : frame.length ≤ sent) :
    framePacketsLoop frame fuel sent = [] := by
  cases fuel with
  | zero => rfl
  | succ n =>
    simp only [framePacketsLoop]
    rw [if_neg (by omega)]

theorem framePacketsLoop_succ (frame : Bytes) (fuel sent : Nat) (h : sent < frame.length) :
    framePacketsLoop frame (fuel + 1) sent =
      voicePacket ((frame.drop sent).take 31) ::
        framePacketsLoop frame fuel (sent + min 31 (frame.length - sent)) := by
  simp only [framePacketsLoop, PACKET_SIZE]
  rw [if_pos h]
  have hm : min 31 (frame.length - sent) % 256 = min 31 (frame.length - sent) :=
    Nat.mod_eq_of_lt (by omega)
  have hc : (frame.drop sent).take (min 31 (frame.length - sent)) = (frame.drop sent).take 31 := by
    by_cases hle : 31 ≤ frame.length - sent
    · rw [Nat.min_eq_left hle]
    · rw [Nat.min_eq_right (by omega), List.take_of_length_le (by simp),
        List.take_of_length_le (by simp; omega)]
  have hl : ((frame.drop sent).take 31).length = min 31 (frame.length - sent) := by
    simp
  simp only [Nat.add_one_sub_one]
  rw [hm, hc, voicePacket, hl]

/-- The packets of one frame, listed by chunk number. -/
theorem framePacketsLoop_eq_map (frame : Bytes) :
    ∀ (fuel sent : Nat), frame.length - sent ≤ fuel →
      framePacketsLoop frame fuel sent =
        (List.range ((frame.length - sent + 30) / 31)).map
          (fun k => voicePacket ((frame.drop (sent + k * 31)).take 31)) := by
  intro fuel
  induction fuel with
  | zero =>
    intro sent hf
    have h0 : (frame.length - sent + 30) / 31 = 0 := by omega
    rw [h0]
    rfl
  | succ n ih =>
    intro sent hf
    by_cases h : sent < frame.length
    · rw [framePacketsLoop_succ frame n sent h]
      by_cases hle : 31 ≤ frame.length - sent
      · have hc : (frame.length - sent + 30) / 31 = (frame.length - (sent + 31) + 30) / 31 + 1 := by
          omega
        rw [Nat.min_eq_left hle, ih (sent + 31) (by omega), hc, List.range_succ_eq_map,
          List.map_cons, List.map_map]
        congr 1
        apply List.map_congr_left
        intro a _
        have e : sent + 31 + a * 31 = sent + (a + 1) * 31 := by ring
        simp only [Function.comp, Nat.succ_eq_add_one]
        rw [e]
      · have hc : (frame.length - sent + 30) / 31 = 1 := by omega
        rw [Nat.min_eq_right (by omega), framePacketsLoop_done frame n _ (by omega), hc]
        rfl
    · have h0 : (frame.length - sent + 30) / 31 = 0 := by omega
      rw [framePacketsLoop_done frame _ _ (by omega), h0]
      rfl

theorem framePackets_eq_map (frame : Bytes) :
    framePackets frame =
      (List.range ((frame.length + 30) / 31)).map
        (fun k => voicePacket ((frame.drop (k * 31)).take 31)) := by
  have h := framePacketsLoop_eq_map frame frame.length 0 (by omega)
  simp only [Nat.sub_zero, Nat.zero_add] at h
  exact h

theorem voicePacket_payload (chunk : Bytes) :
    ((voicePacket chunk).drop 1).take ((voicePacket chunk).getD 0 0) = chunk := by
  simp [voicePacket]

theorem eofPacket_eq : eofPacket = 255 :: List.replicate 31 0xEE := by decide

/-- C9 (voice transmit wire format): a compressed frame of `M` bytes is sent as
`ceil (M / 31)` packets; packet `k` has exactly 32 bytes, byte 0 is the chunk
length `L = min 31 (M - 31 k)`, between 1 and 31, bytes `1..L` are the frame
bytes from offset `31 k`, and the remaining bytes are 0; the payloads in order
make up the frame. `transmit` sends the packets of all frames in order and then
one 32-byte end marker, byte 0 equal to 255 and the other 31 bytes 0xEE. -/
theorem voice_wire_format (frame : Bytes) (frames : List Bytes) :
    (framePackets frame).length = (frame.length + 30) / 31 ∧
    31 * ((framePackets frame).length - 1) ≤ frame.length ∧
    frame.length ≤ 31 * (framePackets frame).length ∧
    (∀ k, k < (frame.length + 30) / 31 →
      ∃ p, (framePackets frame)[k]? = some p ∧ p.length = 32 ∧
        1 ≤ p.getD 0 0 ∧ p.getD 0 0 ≤ 31 ∧
        p.getD 0 0 = min 31 (frame.length - 31 * k) ∧
        (p.drop 1).take (p.getD 0 0) = (frame.drop (31 * k)).take (p.getD 0 0) ∧
        p.drop (1 + p.getD 0 0) = List.replicate (31 - p.getD 0 0) 0) ∧
    ((framePackets frame).map (fun p => (p.drop 1).take (p.getD 0 0))).flatten = frame ∧
    transmit frames = (frames.map framePackets).flatten ++ [255 :: List.replicate 31 0xEE] ∧
    (255 :: List.replicate 31 0xEE).length = 32 := by
  have hlen : (framePackets frame).length = (frame.length + 30) / 31 := by
    rw [framePackets_eq_map]
    simp
  refine ⟨hlen, by rw [hlen]; omega, by rw [hlen]; omega, ?_, ?_, ?_, by decide⟩
  · intro k hk
    have hL : ((frame.drop (k * 31)).take 31).length = min 31 (frame.length - 31 * k) := by
      rw [List.length_take, List.length_drop, Nat.mul_comm]
    refine ⟨voicePacket ((frame.drop (k * 31)).take 31), ?_, ?_, ?_, ?_, ?_, ?_, ?_⟩
    · rw [framePackets_eq_map, List.getElem?_map, List.getElem?_range hk]
      rfl
    · simp only [voicePacket, List.length_cons, List.length_append, List.length_replicate]
      rw [hL]
      omega
    · simp only [voicePacket, List.getD_cons_zero]
      rw [hL]
      omega
    · simp only [voicePacket, List.getD_cons_zero]
      rw [hL]
      omega
    · simp only [voicePacket, List.getD_cons_zero]
      exact hL
    · rw [voicePacket_payload]
      simp only [voicePacket, List.getD_cons_zero]
      rw [List.length_take, Nat.mul_comm 31 k, take_min_length]
    · simp only [voicePacket, List.getD_cons_zero]
      rw [Nat.add_comm, ← List.drop_drop]
      simp
  · rw [framePackets_eq_map, List.map_map]
    have hf : ((fun p : Packet => (p.drop 1).take (p.getD 0 0)) ∘
        fun k => voicePacket ((frame.drop (k * 31)).take 31)) =
        fun k => (frame.drop (k * 31)).take 31 := by
      funext k
      exact voicePacket_payload _
    rw [hf, flatten_frames, List.take_of_length_le (by omega)]
  · simp only [transmit]
    rw [eofPacket_eq]

/-! ## Receiver main loop: the claim -/

/-- C7 (mode routing): in a pass of the dispatch loop in which `receiveFile`
returns `mode`, leaving `air1` in the air: `STS` runs `receiveSTS` on `air1`;
`STT`, `TTS` and `TTT` run exactly one more `receiveFile` on `air1`, whose
result is the message; every other string, the empty one and `sts` among them,
reads no further packet. In each case the loop goes on with the next pass on
the packets left, which again starts by reading a mode with `receiveFile`. -/
theorem mode_routing {σ : Type} (c : Codec σ) (air air1 : List Packet) (mode : Bytes) (n : Nat)
    (htag : receiveFile air = some (mode, air1)) :
    (mode = str "STS" →
      mainIteration c air =
        (receiveSTS c air1).map (fun r => (Outcome.voice r.1.decoded r.1.allSamples, r.2))) ∧
    (mode = str "STT" ∨ mode = str "TTS" ∨ mode = str "TTT" →
      mainIteration c air =
        (receiveFile air1).map
          (fun r => (Outcome.text mode r.1 (detectEmergencyKeywords r.1), r.2))) ∧
    (mode ≠ str "STS" ∧ mode ≠ str "STT" ∧ mode ≠ str "TTS" ∧ mode ≠ str "TTT" →
      mainIteration c air = some (Outcome.unknown mode, air1)) ∧
    (mode = [] ∨ mode = str "sts" → mainIteration c air = some (Outcome.unknown mode, air1)) ∧
    (∀ o air2, mainIteration c air = some (o, air2) →
      mainLoop c (n + 1) air = o :: mainLoop c n air2 ∧
      (∀ tag air3, receiveFile air2 = some (tag, air3) →
        tag ≠ str "STS" ∧ tag ≠ str "STT" ∧ tag ≠ str "TTS" ∧ tag ≠ str "TTT" →
        mainLoop c (n + 2) air = o :: Outcome.unknown tag :: mainLoop c n air3)) := by
  have hunk : ∀ (a a1 : List Packet) (m : Bytes), receiveFile a = some (m, a1) →
      m ≠ str "STS" ∧ m ≠ str "STT" ∧ m ≠ str "TTS" ∧ m ≠ str "TTT" →
      mainIteration c a = some (Outcome.unknown m, a1) := by
    intro a a1 m ht h
    simp only [mainIteration]
    rw [ht]
    simp only
    rw [if_neg h.1, if_neg (by simp [h.2.1, h.2.2.1, h.2.2.2])]
  refine ⟨fun h => ?_, fun h => ?_, hunk air air1 mode htag, fun h => ?_, fun o air2 ho => ?_⟩
  · simp only [mainIteration]
    rw [htag]
    simp only
    rw [if_pos h]
    cases receiveSTS c air1 <;> rfl
  · have hne : mode ≠ str "STS" := by
      rcases h with h | h | h <;> (subst h; decide)
    simp only [mainIteration]
    rw [htag]
    simp only
    rw [if_neg hne, if_pos h]
    cases receiveFile air1 <;> rfl
  · apply hunk air air1 mode htag
    rcases h with h | h <;> (subst h; decide)
  · have h1 : mainLoop c (n + 1) air = o :: mainLoop c n air2 := by
      simp only [mainLoop]
      rw [ho]
    refine ⟨h1, fun tag air3 ht hne => ?_⟩
    have h2 := hunk air2 air3 tag ht hne
    simp only [mainLoop]
    rw [ho]
    simp only
    rw [h2]

/-- C7 at the traffic of `sendMessage` for `TTT`, `hi` and `sts`. -/
theorem mode_routing_witness :
    receiveFile (sendMessage (str "TTT") ++ (sendMessage (str "hi") ++ sendMessage (str "sts"))) =
      some (str "TTT", sendMessage (str "hi") ++ sendMessage (str "sts")) ∧
    mainIteration (sumCodec 2)
        (sendMessage (str "TTT") ++ (sendMessage (str "hi") ++ sendMessage (str "sts"))) =
      (receiveFile (sendMessage (str "hi") ++ sendMessage (str "sts"))).map
        (fun r => (Outcome.text (str "TTT") r.1 (detectEmergencyKeywords r.1), r.2)) :=
  ⟨by decide,
    (mode_routing (sumCodec 2)
      (sendMessage (str "TTT") ++ (sendMessage (str "hi") ++ sendMessage (str "sts")))
      (sendMessage (str "hi") ++ sendMessage (str "sts")) (str "TTT") 0 (by decide)).2.1
      (by decide)⟩

/-! ## Voice link end to end -/

theorem payloadStream_append (a b : List Packet) :
    payloadStream (a ++ b) = payloadStream a ++ payloadStream b := by
  simp [payloadStream, List.filter_append]

/-- Every packet written for a frame is a 32-byte packet the receiver accepts. -/
theorem framePackets_accepted (frame : Bytes) :
    ∀ p ∈ framePackets frame, accepted p = true ∧ p.length = 32 := by
  intro p hp
  rw [framePackets_eq_map] at hp
  obtain ⟨k, hk, rfl⟩ := List.mem_map.mp hp
  have hk := List.mem_range.mp hk
  have hL : ((frame.drop (k * 31)).take 31).length = min 31 (frame.length - k * 31) := by
    rw [List.length_take, List.length_drop]
  constructor
  · simp only [accepted, voicePacket, List.getD_cons_zero, decide_eq_true_eq]
    rw [hL]
    omega
  · simp only [voicePacket, List.length_cons, List.length_append, List.length_replicate]
    rw [hL]
    omega

/-- The accepted payloads of the packets of a frame are the frame. -/
theorem payloadStream_framePackets (frame : Bytes) :
    payloadStream (framePackets frame) = frame := by
  have hall : (framePackets frame).filter accepted = framePackets frame :=
    List.filter_eq_self.mpr (fun p hp => (framePackets_accepted frame p hp).1)
  simp only [payloadStream]
  rw [hall, framePackets_eq_map, List.map_map]
  have hf : ((fun p : Packet => (p.drop 1).take (p.getD 0 0)) ∘
      fun k => voicePacket ((frame.drop (k * 31)).take 31)) =
      fun k => (frame.drop (k * 31)).take 31 := by
    funext k
    exact voicePacket_payload _
  rw [hf, flatten_frames, List.take_of_length_le (by omega)]

theorem payloadStream_frames (frames : List Bytes) :
    payloadStream ((frames.map framePackets).flatten) = frames.flatten := by
  induction frames with
  | nil => rfl
  | cons f fs ih =>
    rw [List.map_cons, List.flatten_cons, payloadStream_append, payloadStream_framePackets, ih,
      List.flatten_cons]

/-- A stream that starts with one whole frame: its first frame is that one. -/
theorem framesOf_cons (F : Nat) (hF : 1 ≤ F) (f B : Bytes) (hf : f.length = F) :
    framesOf F (f ++ B) = f :: framesOf F B := by
  have hlen : (f ++ B).length / F = B.length / F + 1 := by
    rw [List.length_append, hf, Nat.add_comm, Nat.add_div_right _ (by omega)]
  simp only [framesOf]
  rw [hlen, List.range_succ_eq_map, List.map_cons, List.map_map]
  congr 1
  · simp only [Nat.zero_mul, List.drop_zero]
    rw [← hf, List.take_left']
    rfl
  · apply List.map_congr_left
    intro k _
    simp only [Function.comp, Nat.succ_eq_add_one]
    have e : (k + 1) * F = f.length + k * F := by rw [Nat.succ_mul, hf, Nat.add_comm]
    rw [e, List.drop_append]

theorem framesOf_flatten (F : Nat) (hF : 1 ≤ F) (frames : List Bytes)
    (h : ∀ f ∈ frames, f.length = F) : framesOf F frames.flatten = frames := by
  induction frames with
  | nil => simp [framesOf]
  | cons f fs ih =>
    rw [List.flatten_cons, framesOf_cons F hF f _ (h f (List.mem_cons_self f fs)),
      ih (fun g hg => h g (List.mem_cons_of_mem f hg))]

theorem length_flatten_frames (F : Nat) (frames : List Bytes)
    (h : ∀ f ∈ frames, f.length = F) : frames.flatten.length = frames.length * F := by
  induction frames with
  | nil => simp
  | cons f fs ih =>
    rw [List.flatten_cons, List.length_append, h f (List.mem_cons_self f fs),
      ih (fun g hg => h g (List.mem_cons_of_mem f hg)), List.length_cons, Nat.succ_mul,
      Nat.add_comm]

/-- C11 (lossless voice transport): for a frame size `M` of at least 1 and any
finite sequence of `M`-byte compressed frames, `receiveSTS` with the same frame
size, fed the packets of `transmit` with none lost or reordered, returns at the
end marker having handed the decoder exactly those frames, in order; every
data packet is a 32-byte packet it accepts, none is dropped as noise, the
accepted payloads are the frames laid end to end, and the buffer is empty when
the session ends. -/
theorem lossless_voice_transport {σ : Type} (c : Codec σ) (hM : 1 ≤ c.nbytes)
    (frames : List Bytes) (hlen : ∀ f ∈ frames, f.length = c.nbytes) (air : List Packet) :
    ∃ s : StsState σ, receiveSTS c (transmit frames ++ air) = some (s, air) ∧
      s.decoded = frames ∧
      s.decoded.length = frames.length ∧
      s.buffer = [] ∧
      s.allSamples = (decodeFrames c frames).2 ∧
      (∀ p ∈ (frames.map framePackets).flatten, p.length = 32 ∧ accepted p = true) ∧
      (frames.map framePackets).flatten.filter accepted = (frames.map framePackets).flatten ∧
      payloadStream ((frames.map framePackets).flatten) = frames.flatten := by
  have hacc : ∀ p ∈ (frames.map framePackets).flatten, p.length = 32 ∧ accepted p = true := by
    intro p hp
    obtain ⟨l, hl, hpl⟩ := List.mem_flatten.mp hp
    obtain ⟨f, -, rfl⟩ := List.mem_map.mp hl
    exact ⟨(framePackets_accepted f p hpl).2, (framePackets_accepted f p hpl).1⟩
  have hne : ∀ p ∈ (frames.map framePackets).flatten, p.getD 0 0 ≠ 255 := by
    intro p hp
    have := (hacc p hp).2
    simp only [accepted, decide_eq_true_eq] at this
    omega
  obtain ⟨s, r, d, -, m, cd⟩ :=
    receiveSTS_spec c hM ((frames.map framePackets).flatten) eofPacket air hne (by decide)
  rw [payloadStream_frames] at d m cd
  rw [framesOf_flatten c.nbytes hM frames hlen] at d cd
  rw [length_flatten_frames c.nbytes frames hlen, Nat.mul_mod_left] at m
  refine ⟨s, ?_, d, by rw [d], List.length_eq_zero.mp m, ?_, hacc, ?_, payloadStream_frames frames⟩
  · simp only [transmit, List.append_assoc, List.singleton_append]
    exact r
  · rw [← d] at cd
    rw [← d]
    exact (Prod.mk.inj cd).2
  · exact List.filter_eq_self.mpr (fun p hp => (hacc p hp).2)

/-- C11 at two frames of 33 bytes, each sent in two packets. -/
theorem lossless_voice_transport_witness :
    1 ≤ (sumCodec 33).nbytes ∧
    (∀ f ∈ [List.range 33, List.replicate 33 7], f.length = (sumCodec 33).nbytes) ∧
    (transmit [List.range 33, List.replicate 33 7]).length = 5 ∧
    ∃ s : StsState Nat,
      receiveSTS (sumCodec 33) (transmit [List.range 33, List.replicate 33 7] ++ [[1]]) =
        some (s, [[1]]) ∧
      s.decoded = [List.range 33, List.replicate 33 7] ∧
      s.decoded.length = [List.range 33, List.replicate 33 7].length ∧
      s.buffer = [] ∧
      s.allSamples = (decodeFrames (sumCodec 33) [List.range 33, List.replicate 33 7]).2 ∧
      (∀ p ∈ ([List.range 33, List.replicate 33 7].map framePackets).flatten,
        p.length = 32 ∧ accepted p = true) ∧
      ([List.range 33, List.replicate 33 7].map framePackets).flatten.filter accepted =
        ([List.range 33, List.replicate 33 7].map framePackets).flatten ∧
      payloadStream (([List.range 33, List.replicate 33 7].map framePackets).flatten) =
        [List.range 33, List.replicate 33 7].flatten :=
  ⟨by decide, by decide, by decide,
    lossless_voice_transport (sumCodec 33) (by decide) [List.range 33, List.replicate 33 7]
      (by decide) [[1]]⟩

/-! ## Text-to-Speech transmitter start-up: the claim -/

/-- C12 (tag framing of the Text-to-Speech transmitter): the start-up traffic is
the raw 3-byte packet `TTS`, with no sentinel after it, followed by the packets
of `sendFile` for the content `1`: the packet `1` and the 4-byte sentinel. Read
by the dispatch loop at its start, the first `receiveFile` returns `TTS1` and
uses up all three packets; `TTS1` is none of the four tags, so the pass ends as
an unknown mode: no text session is entered and no payload message is read,
and the loop then waits for a mode again. -/
theorem tts_tag_framing {σ : Type} (c : Codec σ) (n : Nat) :
    ttsStartup = [str "TTS"] ++ sendFile (str "1") ∧
    sendFile (str "1") = [str "1", str "EOF" ++ [0]] ∧
    (str "TTS").length = 3 ∧ (str "EOF" ++ [0]).length = 4 ∧
    receiveFile ttsStartup = some (str "TTS1", []) ∧
    str "TTS1" ≠ str "TTS" ∧
    mainIteration c ttsStartup = some (Outcome.unknown (str "TTS1"), []) ∧
    mainLoop c (n + 1) ttsStartup = [Outcome.unknown (str "TTS1")] ∧
    (∀ air : List Packet,
      mainIteration c (ttsStartup ++ air) = some (Outcome.unknown (str "TTS1"), air)) := by
  have hrecv : ∀ air : List Packet,
      receiveFile (ttsStartup ++ air) = some (str "TTS1", air) := by
    intro air
    have h := receiveFileLoop_run [str "TTS", str "1"] (str "EOF" ++ [0]) air
      (by decide) (by decide) []
    have e : ttsStartup = [str "TTS", str "1"] ++ [str "EOF" ++ [0]] := by decide
    have e2 : ([] : Bytes) ++ [str "TTS", str "1"].flatten = str "TTS1" := by decide
    rw [e2] at h
    rw [e, receiveFile, List.append_assoc, List.singleton_append]
    exact h
  have hiter : ∀ air : List Packet,
      mainIteration c (ttsStartup ++ air) = some (Outcome.unknown (str "TTS1"), air) := by
    intro air
    simp only [mainIteration]
    rw [hrecv air]
    simp only
    rw [if_neg (by decide), if_neg (by decide)]
  have h0 := hiter []
  rw [List.append_nil] at h0
  refine ⟨by decide, by decide, by decide, by decide, by decide, by decide, h0, ?_, hiter⟩
  simp only [mainLoop]
  rw [h0]
  simp only
  cases n <;> simp [mainLoop, mainIteration, receiveFile, receiveFileLoop]

end CAST
